import Mathlib

/-!
Verification of the expert-fusion layer of the mmoe repository
(src/expert_fusion/mustard_fusion.py and src/expert_fusion/sarc/sarc_fusion.py),
shallowly embedded in Lean 4.

Python dictionaries are modelled as association lists in insertion order
(keys unique in every dictionary the code builds); numpy arrays of floats are
modelled as lists of rationals, except where IEEE overflow behaviour matters,
where an extended carrier type with infinity and NaN is used.
-/

set_option linter.unnecessarySeqFocus false
set_option linter.unreachableTactic false
set_option linter.unusedTactic false

namespace MMoE

/-- Association-list lookup, modelling a Python dictionary read `d[k]`
(returns the value stored for the unique occurrence of the key). -/
def getKey {β : Type} (m : List (String × β)) (k : String) : Option β :=
  (m.find? (fun p => p.1 == k)).map (fun p => p.2)

/-- Association-list update, modelling a Python dictionary write `d[k] = v`:
replace in place when the key is present, append at the end otherwise
(matching dict insertion-order semantics). -/
def setKey {β : Type} : List (String × β) → String → β → List (String × β)
  | [], k, v => [(k, v)]
  | (k0, v0) :: rest, k, v =>
      if k0 == k then (k, v) :: rest else (k0, v0) :: setKey rest k v

/-- Python `max(v)` on a list of floats. Python raises ValueError on the empty
list; the code only ever applies it to nonempty score vectors, and the default
0 for the empty list is never relied on by any theorem. -/
def vmax : List ℚ → ℚ
  | [] => 0
  | a :: r => r.foldl max a

/-- Index of the first occurrence of `x`, modelling Python `v.index(x)`
(the out-of-range result for an absent element is never relied on). -/
def idxOfQ (x : ℚ) : List ℚ → ℕ
  | [] => 0
  | a :: r => if a == x then 0 else idxOfQ x r + 1

/-- First index achieving the maximum: Python `v.index(max(v))` and
`np.argmax(v)` (both take the first occurrence of the maximum). -/
def argmaxIdx (v : List ℚ) : ℕ := idxOfQ (vmax v) v

/-- Numpy softmax expression `np.exp(v) / np.sum(np.exp(v))` as written in
softmax_fusion and cascaded_fusion, parametric in the exponential function
`e` (standing for `np.exp`), over exact rational arithmetic. -/
def softmaxP (e : ℚ → ℚ) (v : List ℚ) : List ℚ :=
  v.map (fun x => e x / (v.map e).sum)

/-- The identity function on rationals, used to instantiate the exponential
parameter in concrete witnesses (any positive values realising the stated
softmax outputs are equally good; only the resulting probability vectors
enter the fusion logic). -/
def idQ : ℚ → ℚ := fun x => x

/-- Columns of a list of equal-length vectors, modelling Python
`zip(*vectors)`: the number of columns is the minimum length, extra entries
of longer vectors are silently dropped (zip truncation). -/
def pyCols (vs : List (List ℚ)) : List (List ℚ) :=
  match vs with
  | [] => []
  | v :: rest =>
      (List.range ((rest.map List.length).foldl min v.length)).map
        (fun i => vs.map (fun w => w.getD i 0))

/-- One line of an expert result file: fields image_id, text, logits, target. -/
structure Record where
  image_id : String
  text : String
  logits : List ℚ
  target : ℤ
deriving DecidableEq

/-- The key `f"{image_id}_{text}"` built by load_and_transform_data. -/
def Record.dataId (r : Record) : String := r.image_id ++ "_" ++ r.text

/-- The per-example aggregate `results[data_id]`: the inner dictionary
`logits` from expert name to score vector, and the `target` field
(initially None). -/
structure Entry where
  logits : List (String × List ℚ)
  target : Option ℤ
deriving DecidableEq

/-- The fresh entry a defaultdict access creates:
`{"logits": defaultdict(list), "target": None}`. -/
def Entry.empty : Entry := ⟨[], none⟩

/-- The results map built by load_and_transform_data, keyed by data_id. -/
def Results := List (String × Entry)

/-- The fixed assertion message of the loader:
`assert results[data_id]["target"] == line["target"], ...`. -/
def assertMsg : String := "Targets do not match across subsets for the same data."

/-- One iteration of the loader body for a line of the file of expert
`name`: store the logits under the expert name, set the target if still
None, then assert that the stored target equals the target of the line.
A failed assertion aborts the whole run with the fixed message. -/
def loadStep (name : String) (m : List (String × Entry)) (r : Record) :
    Except String (List (String × Entry)) :=
  let id := r.dataId
  let e := (getKey m id).getD Entry.empty
  let e := { e with logits := setKey e.logits name r.logits }
  match e.target with
  | none => .ok (setKey m id { e with target := some r.target })
  | some t =>
      if t == r.target then .ok (setKey m id e)
      else .error assertMsg

/-- Read one expert file: run the loader body over its lines in order; a
failed assertion aborts the rest of the run. -/
def loadRecs (name : String) (m : List (String × Entry)) :
    List Record → Except String (List (String × Entry))
  | [] => .ok m
  | r :: rs =>
      match loadStep name m r with
      | .ok m' => loadRecs name m' rs
      | .error msg => .error msg

/-- Run the loader over a list of (expert name, file contents) pairs in
order, from a given results map. -/
def loadFilesFrom (m : List (String × Entry)) :
    List (String × List Record) → Except String (List (String × Entry))
  | [] => .ok m
  | f :: fs =>
      match loadRecs f.1 m f.2 with
      | .ok m' => loadFilesFrom m' fs
      | .error msg => .error msg

/-- load_and_transform_data / load_and_transform_baseline, parametric in the
list of (expert name, file contents) pairs: read the files in order,
starting from an empty results map. -/
def loadFiles (files : List (String × List Record)) :
    Except String (List (String × Entry)) :=
  loadFilesFrom [] files

/-! Fusion strategies. Each per-example prediction function is the loop body
of the corresponding Python function, applied to one entry of the results
map. -/

/-- interaction_type_acc loop body: predict the argmax of the raw logits of
the one named expert. The defaultdict read of an absent expert yields an
empty list, on which Python max raises ValueError; theorems only use
present experts. -/
def interactionPredict (name : String) (data : Entry) : ℕ :=
  argmaxIdx ((getKey data.logits name).getD [])

/-- simple_average_fusion loop body: elementwise average of all experts
(`sum(col)/len(col)` over `zip(*values)` columns), then first-occurrence
argmax. -/
def simpleAvgPredict (data : Entry) : ℕ :=
  argmaxIdx ((pyCols (data.logits.map Prod.snd)).map
    (fun col => col.sum / (col.length : ℚ)))

/-- weighted_average_fusion loop body: the weights come as a list zipped
against the expert score vectors in dictionary order (zip truncates to the
shorter of the two); coordinate i ranges over the length of the first
expert vector. -/
def weightedPredict (weights : List ℚ) (data : Entry) : ℕ :=
  let vals := data.logits.map Prod.snd
  argmaxIdx ((List.range (vals.headD []).length).map
    (fun i => ((weights.zip vals).map (fun p => p.1 * p.2.getD i 0)).sum))

/-- max_fusion loop body: elementwise maximum over experts, then
first-occurrence argmax. -/
def maxPredict (data : Entry) : ℕ :=
  argmaxIdx ((pyCols (data.logits.map Prod.snd)).map vmax)

/-- softmax_fusion loop body: softmax each expert vector independently,
average the probability vectors coordinatewise (`np.mean(probs, axis=0)`),
then argmax. -/
def softmaxPredict (e : ℚ → ℚ) (data : Entry) : ℕ :=
  argmaxIdx ((pyCols ((data.logits.map Prod.snd).map (softmaxP e))).map
    (fun col => col.sum / (col.length : ℚ)))

/-- cascaded_fusion loop body, parametric in the incoming softmaxed_probs
dictionary `s` (the mustard variant declares that dictionary once outside
the loop, so state flows from example to example; the sarc variant starts
from the empty dictionary each iteration). Returns the updated dictionary
and the prediction; `none` models a Python KeyError on a missing expert
(note the short-circuit of `and`: U is only read when R is above the
threshold, and AS only on the fallback branch). -/
def cascStep (e : ℚ → ℚ) (t : ℚ) (s : List (String × List ℚ)) (data : Entry) :
    List (String × List ℚ) × Option ℕ :=
  let s' := data.logits.foldl (fun acc kv => setKey acc kv.1 (softmaxP e kv.2)) s
  let pred :=
    match getKey s' "R" with
    | none => none
    | some pR =>
        if vmax pR > t then
          match getKey s' "U" with
          | none => none
          | some pU =>
              if vmax pU > t then
                some (if vmax pR > vmax pU then argmaxIdx pR else argmaxIdx pU)
              else (getKey s' "AS").map argmaxIdx
        else (getKey s' "AS").map argmaxIdx
  (s', pred)

/-- sarc cascaded_fusion loop body: softmaxed_probs is rebuilt from the
empty dictionary for every example, so the prediction is a function of the
single example. -/
def cascadedPredict (e : ℚ → ℚ) (t : ℚ) (data : Entry) : Option ℕ :=
  (cascStep e t [] data).2

/-- mustard cascaded_fusion over a whole results map: softmaxed_probs is
created once before the loop, so the dictionary is threaded through the
examples in map order; returns the prediction sequence. -/
def mustardCascadedPreds (e : ℚ → ℚ) (t : ℚ) (results : List (String × Entry)) :
    List (Option ℕ) :=
  (results.foldl
    (fun acc p =>
      let r := cascStep e t acc.1 p.2
      (r.1, acc.2 ++ [r.2]))
    (([] : List (String × List ℚ)), ([] : List (Option ℕ)))).2

/-- Prediction sequence of a per-example strategy over a results map, in
map (insertion) order. -/
def fusionPreds (predF : Entry → ℕ) (results : List (String × Entry)) : List ℕ :=
  results.map (fun p => predF p.2)

/-- Ground-truth sequence of a results map, in map order. The loader sets
every target, so the None default is never used on loader output. -/
def gthsOf (results : List (String × Entry)) : List ℤ :=
  results.map (fun p => p.2.target.getD 0)

/-! Metrics, following sklearn.metrics with the default binary setting
(positive class 1) and the default zero_division behaviour, which returns
0.0 (after a warning) when a denominator is zero. -/

/-- accuracy_score: fraction of exact matches (rational division; sklearn
rejects empty input, which no theorem uses). -/
def accScore (gths : List ℤ) (preds : List ℕ) : ℚ :=
  (((gths.zip preds).countP (fun p => p.1 == (p.2 : ℤ))) : ℚ) / (gths.length : ℚ)

/-- True positives for positive class 1. -/
def tpOf (gths : List ℤ) (preds : List ℕ) : ℕ :=
  (gths.zip preds).countP (fun p => p.1 == 1 && p.2 == 1)

/-- precision_score for positive class 1: TP over predicted positives,
0.0 when there are no predicted positives. -/
def precScore (gths : List ℤ) (preds : List ℕ) : ℚ :=
  let pp := preds.countP (fun x => x == 1)
  if pp = 0 then 0 else (tpOf gths preds : ℚ) / (pp : ℚ)

/-- recall_score for positive class 1: TP over actual positives, 0.0 when
there are no actual positives. -/
def recScore (gths : List ℤ) (preds : List ℕ) : ℚ :=
  let ap := gths.countP (fun x => x == 1)
  if ap = 0 then 0 else (tpOf gths preds : ℚ) / (ap : ℚ)

/-- f1_score for positive class 1: harmonic mean of precision and recall,
0.0 when both are zero. -/
def f1Score (gths : List ℤ) (preds : List ℕ) : ℚ :=
  let p := precScore gths preds
  let r := recScore gths preds
  if p + r = 0 then 0 else 2 * p * r / (p + r)

/-! Extended carrier for the one claim where IEEE float64 overflow matters.
All values arising in the softmax (outputs of exp and their sums) are
nonnegative, so a sign-free model with a single infinity suffices. -/

/-- IEEE-style value: a finite rational, positive infinity, or NaN. -/
inductive F where
  | fin : ℚ → F
  | inf : F
  | nan : F
deriving DecidableEq

/-- IEEE addition on nonnegative operands: NaN propagates, infinity
absorbs. -/
def fadd : F → F → F
  | .nan, _ => .nan
  | _, .nan => .nan
  | .inf, _ => .inf
  | _, .inf => .inf
  | .fin a, .fin b => .fin (a + b)

/-- IEEE division on nonnegative operands: NaN propagates, inf/inf and 0/0
are NaN, x/inf is 0, inf/finite is inf, x/0 is inf for x positive. -/
def fdiv : F → F → F
  | .nan, _ => .nan
  | _, .nan => .nan
  | .inf, .inf => .nan
  | .fin _, .inf => .fin 0
  | .inf, .fin _ => .inf
  | .fin a, .fin b =>
      if b = 0 then (if a = 0 then .nan else .inf) else .fin (a / b)

/-- Numpy np.sum over the extended carrier (fold of fadd from 0.0). -/
def fsum (l : List F) : F := l.foldl fadd (.fin 0)

/-- The softmax expression of softmax_fusion and cascaded_fusion,
`np.exp(v) / np.sum(np.exp(v))`, over the extended carrier: exactly as
written in the source, with no subtraction of the per-vector maximum.
`e` stands for np.exp under IEEE float64. -/
def softmaxNaiveF (e : ℚ → F) (v : List ℚ) : List F :=
  v.map (fun x => fdiv (e x) (fsum (v.map e)))

/-- The numerically stable variant the specification prescribes: subtract
the per-vector maximum before exponentiating. This definition follows the
words of the specification, for comparison with softmaxNaiveF, which
follows the source. -/
def softmaxStableF (e : ℚ → F) (v : List ℚ) : List F :=
  softmaxNaiveF e (v.map (fun x => x - vmax v))

/-- IEEE float64 np.exp, modelled at the granularity the theorems need:
np.exp overflows to +inf for arguments above 709.78; the finite-regime
values are irrelevant to every theorem that mentions this function (they
all hold for an arbitrary exponential, see the parametric theorems) and
are represented by a fixed finite placeholder. -/
def expF64 (x : ℚ) : F := if 709 < x then .inf else .fin 1

/-- Substring test on strings (whether pat occurs contiguously in hay),
used to state that an error message names an example id. -/
def startsWithLC : List Char → List Char → Bool
  | [], _ => true
  | _ :: _, [] => false
  | a :: as, b :: bs => a == b && startsWithLC as bs

/-- Auxiliary contiguous-occurrence test on character lists. -/
def containsLC (pat : List Char) : List Char → Bool
  | [] => startsWithLC pat []
  | b :: bs => startsWithLC pat (b :: bs) || containsLC pat bs

/-- Whether the string pat occurs contiguously inside hay. -/
def strContainsSub (hay pat : String) : Bool :=
  containsLC pat.toList hay.toList

/-! Association-list algebra. -/

theorem getKey_nil {β : Type} (k : String) : getKey ([] : List (String × β)) k = none :=
  rfl

theorem getKey_cons {β : Type} (k0 : String) (v0 : β) (rest : List (String × β))
    (k : String) :
    getKey ((k0, v0) :: rest) k = if k0 = k then some v0 else getKey rest k := by
  by_cases h : k0 = k
  · rw [if_pos h]
    unfold getKey
    rw [List.find?_cons_of_pos _ (by simpa using h)]
    rfl
  · rw [if_neg h]
    unfold getKey
    rw [List.find?_cons_of_neg _ (by simpa using h)]

theorem setKey_cons {β : Type} (k0 : String) (v0 : β) (rest : List (String × β))
    (k : String) (v : β) :
    setKey ((k0, v0) :: rest) k v =
      if k0 = k then (k, v) :: rest else (k0, v0) :: setKey rest k v := by
  by_cases h : k0 = k <;> simp [setKey, h]

theorem getKey_setKey {β : Type} (m : List (String × β)) (k k' : String) (v : β) :
    getKey (setKey m k v) k' = if k' = k then some v else getKey m k' := by
  induction m with
  | nil =>
      show getKey [(k, v)] k' = _
      rw [getKey_cons, getKey_nil]
      by_cases h : k' = k
      · simp [h]
      · simp [h, Ne.symm h]
  | cons p rest ih =>
      obtain ⟨k0, v0⟩ := p
      rw [setKey_cons]
      by_cases h0 : k0 = k
      · subst h0
        rw [if_pos rfl, getKey_cons, getKey_cons]
        by_cases h : k' = k0
        · simp [h]
        · simp [h, Ne.symm h]
      · rw [if_neg h0, getKey_cons, getKey_cons, ih]
        by_cases h : k0 = k'
        · have hk : ¬ k' = k := fun he => h0 (h.trans he)
          simp [h, hk]
        · simp [h]

theorem getKey_eq_none_of_not_mem {β : Type} (m : List (String × β)) (k : String)
    (h : k ∉ m.map Prod.fst) : getKey m k = none := by
  induction m with
  | nil => rfl
  | cons p rest ih =>
      obtain ⟨k0, v0⟩ := p
      simp only [List.map, List.mem_cons, not_or] at h
      rw [getKey_cons, if_neg (Ne.symm h.1), ih h.2]

/-- Lookup after rebuilding a dictionary by iterating over an assoc list with
unique keys and storing a transformed value for each key (the softmax loop of
cascaded_fusion): keys of the iterated list get the transformed value, other
keys keep their value from the initial dictionary. -/
theorem getKey_foldl_setKey (f : List ℚ → List ℚ) (l : List (String × List ℚ))
    (init : List (String × List ℚ)) (k : String)
    (hn : (l.map Prod.fst).Nodup) :
    getKey (l.foldl (fun acc kv => setKey acc kv.1 (f kv.2)) init) k =
      match getKey l k with
      | some v => some (f v)
      | none => getKey init k := by
  induction l generalizing init with
  | nil => simp [getKey]
  | cons p rest ih =>
      obtain ⟨k0, v0⟩ := p
      simp only [List.map, List.nodup_cons] at hn
      rw [List.foldl_cons, ih _ hn.2, getKey_cons]
      by_cases h : k0 = k
      · subst h
        have hnone : getKey rest k0 = none :=
          getKey_eq_none_of_not_mem _ _ hn.1
        rw [if_pos rfl, hnone, getKey_setKey, if_pos rfl]
      · rw [if_neg h]
        cases hrest : getKey rest k
        · rw [getKey_setKey, if_neg (fun he => h he.symm)]
        · rfl

/-- Characterisation of the cascaded_fusion loop body on an example whose
logits dictionary has unique keys and contains experts R, U and AS: the
three lookups in softmaxed_probs hit the freshly stored softmax of the
current example, whatever the incoming dictionary holds. -/
theorem cascStep_snd (e : ℚ → ℚ) (t : ℚ) (s : List (String × List ℚ))
    (data : Entry) (lR lU lAS : List ℚ)
    (hn : (data.logits.map Prod.fst).Nodup)
    (hR : getKey data.logits "R" = some lR)
    (hU : getKey data.logits "U" = some lU)
    (hAS : getKey data.logits "AS" = some lAS) :
    (cascStep e t s data).2 =
      if vmax (softmaxP e lR) > t then
        if vmax (softmaxP e lU) > t then
          some (if vmax (softmaxP e lR) > vmax (softmaxP e lU)
                then argmaxIdx (softmaxP e lR) else argmaxIdx (softmaxP e lU))
        else some (argmaxIdx (softmaxP e lAS))
      else some (argmaxIdx (softmaxP e lAS)) := by
  have hR' : getKey (data.logits.foldl
      (fun acc kv => setKey acc kv.1 (softmaxP e kv.2)) s) "R" = some (softmaxP e lR) := by
    rw [getKey_foldl_setKey _ _ _ _ hn, hR]
  have hU' : getKey (data.logits.foldl
      (fun acc kv => setKey acc kv.1 (softmaxP e kv.2)) s) "U" = some (softmaxP e lU) := by
    rw [getKey_foldl_setKey _ _ _ _ hn, hU]
  have hAS' : getKey (data.logits.foldl
      (fun acc kv => setKey acc kv.1 (softmaxP e kv.2)) s) "AS" = some (softmaxP e lAS) := by
    rw [getKey_foldl_setKey _ _ _ _ hn, hAS]
  simp only [cascStep, hR', hU', hAS', Option.map_some']

/-- First-occurrence argmax of a two-way tie is index 0. -/
theorem argmaxIdx_same (x : ℚ) : argmaxIdx [x, x] = 0 := by
  simp [argmaxIdx, vmax, idxOfQ]

/-!  Claims. -/

/-- C1: cascaded_fusion with confidence threshold t predicts, for every
example whose logits dictionary contains experts R, U and AS (with unique
keys) and for every incoming softmaxed_probs dictionary s (arbitrary for
the mustard variant, empty for the sarc variant): when both the R and the U
maximum softmax probability exceed t, the predicted class is the argmax of
whichever of the two has the strictly higher maximum; otherwise the
predicted class is the argmax of the AS softmax vector, regardless of the
R and U values. -/
theorem c1_cascaded_threshold_branching (e : ℚ → ℚ) (t : ℚ)
    (s : List (String × List ℚ)) (data : Entry) (lR lU lAS : List ℚ)
    (hn : (data.logits.map Prod.fst).Nodup)
    (hR : getKey data.logits "R" = some lR)
    (hU : getKey data.logits "U" = some lU)
    (hAS : getKey data.logits "AS" = some lAS) :
    (vmax (softmaxP e lR) > t → vmax (softmaxP e lU) > t →
      vmax (softmaxP e lR) > vmax (softmaxP e lU) →
      (cascStep e t s data).2 = some (argmaxIdx (softmaxP e lR))) ∧
    (vmax (softmaxP e lR) > t → vmax (softmaxP e lU) > t →
      vmax (softmaxP e lU) > vmax (softmaxP e lR) →
      (cascStep e t s data).2 = some (argmaxIdx (softmaxP e lU))) ∧
    (¬(vmax (softmaxP e lR) > t ∧ vmax (softmaxP e lU) > t) →
      (cascStep e t s data).2 = some (argmaxIdx (softmaxP e lAS))) := by
  rw [cascStep_snd e t s data lR lU lAS hn hR hU hAS]
  refine ⟨fun h1 h2 h3 => ?_, fun h1 h2 h3 => ?_, fun h => ?_⟩
  · rw [if_pos h1, if_pos h2, if_pos h3]
  · rw [if_pos h1, if_pos h2, if_neg (lt_asymm h3)]
  · by_cases h1 : vmax (softmaxP e lR) > t
    · have h2 : ¬ vmax (softmaxP e lU) > t := fun h2 => h ⟨h1, h2⟩
      rw [if_pos h1, if_neg h2]
    · rw [if_neg h1]

/-- Witness for C1: with the identity standing for the exponential, logits
R = [81,19], U = [7,3], AS = [1,9] and threshold 1/2, both specialists are
confident (maxima 81/100 and 7/10), R is strictly higher, and the sarc-style
prediction (empty incoming dictionary) is the argmax of the R softmax. -/
theorem c1_cascaded_threshold_branching_witness :
    (cascStep idQ (1/2) []
        ⟨[("R", [81, 19]), ("U", [7, 3]), ("AS", [1, 9])], some 0⟩).2 =
      some (argmaxIdx (softmaxP idQ [81, 19])) :=
  (c1_cascaded_threshold_branching idQ (1/2) []
      ⟨[("R", [81, 19]), ("U", [7, 3]), ("AS", [1, 9])], some 0⟩
      [81, 19] [7, 3] [1, 9]
      (by decide)
      (by rfl) (by rfl) (by rfl)).1
    (by simp [vmax, softmaxP, idQ] ; norm_num)
    (by simp [vmax, softmaxP, idQ] ; norm_num)
    (by simp [vmax, softmaxP, idQ] ; norm_num)

/-- C2 counterexample: with R maximum softmax probability 81/100, U maximum
softmax probability 1/2 and threshold 4/5, the code requires both R and U
to exceed the threshold, so the prediction is the argmax of AS (class 1
here), not the argmax of R (class 0 here), contrary to the claim. -/
theorem c2_boundary_counterexample :
    vmax (softmaxP idQ [81, 19]) = 81/100 ∧
    vmax (softmaxP idQ [1, 1]) = 1/2 ∧
    cascadedPredict idQ (4/5)
        ⟨[("R", [81, 19]), ("U", [1, 1]), ("AS", [1, 9])], some 0⟩ =
      some (argmaxIdx (softmaxP idQ [1, 9])) ∧
    argmaxIdx (softmaxP idQ [1, 9]) = 1 ∧
    argmaxIdx (softmaxP idQ [81, 19]) = 0 := by
  refine ⟨?_, ?_, ?_, ?_, ?_⟩
  · simp [vmax, softmaxP, idQ] ; norm_num
  · simp [vmax, softmaxP, idQ] ; norm_num
  · simp [cascadedPredict, cascStep, softmaxP, idQ, getKey, setKey, vmax,
      argmaxIdx, idxOfQ, List.find?, List.foldl] <;> norm_num
  · simp [argmaxIdx, idxOfQ, vmax, softmaxP, idQ] ; norm_num
  · simp [argmaxIdx, idxOfQ, vmax, softmaxP, idQ] ; norm_num

/-- C2 amended: whenever the U maximum softmax probability does not exceed
the threshold, the predicted class is the argmax of the AS softmax vector,
regardless of how large the R maximum is (R alone exceeding the threshold
is not sufficient: the code requires both specialists to be confident). -/
theorem c2_boundary_amended (e : ℚ → ℚ) (t : ℚ)
    (s : List (String × List ℚ)) (data : Entry) (lR lU lAS : List ℚ)
    (hn : (data.logits.map Prod.fst).Nodup)
    (hR : getKey data.logits "R" = some lR)
    (hU : getKey data.logits "U" = some lU)
    (hAS : getKey data.logits "AS" = some lAS)
    (h : ¬ vmax (softmaxP e lU) > t) :
    (cascStep e t s data).2 = some (argmaxIdx (softmaxP e lAS)) := by
  rw [cascStep_snd e t s data lR lU lAS hn hR hU hAS]
  by_cases h1 : vmax (softmaxP e lR) > t
  · rw [if_pos h1, if_neg h]
  · rw [if_neg h1]

/-- Witness for the amended C2: concrete instance of the boundary scenario
(maxima 81/100 and 1/2, threshold 4/5): the prediction is the argmax of the
AS softmax vector. -/
theorem c2_boundary_amended_witness :
    (cascStep idQ (4/5) []
        ⟨[("R", [81, 19]), ("U", [1, 1]), ("AS", [1, 9])], some 0⟩).2 =
      some (argmaxIdx (softmaxP idQ [1, 9])) :=
  c2_boundary_amended idQ (4/5) []
    ⟨[("R", [81, 19]), ("U", [1, 1]), ("AS", [1, 9])], some 0⟩
    [81, 19] [1, 1] [1, 9]
    (by decide) (by rfl) (by rfl) (by rfl)
    (by simp [vmax, softmaxP, idQ] ; norm_num)

/-- C5: on the three-example, two-expert scenario (expert A logits [2,1],
[1,2], [0,3]; expert B logits [1,2], [2,1], [1,0]; targets 0, 1, 1),
simple average fusion predicts the sequence [0, 0, 1] (elementwise averages
[3/2,3/2], [3/2,3/2], [1/2,3/2] with first-occurrence argmax) and the
accuracy is 2/3. -/
theorem c5_simple_average_scenario :
    fusionPreds simpleAvgPredict
        [("e1", ⟨[("A", [2, 1]), ("B", [1, 2])], some 0⟩),
         ("e2", ⟨[("A", [1, 2]), ("B", [2, 1])], some 1⟩),
         ("e3", ⟨[("A", [0, 3]), ("B", [1, 0])], some 1⟩)] = [0, 0, 1] ∧
    accScore
        (gthsOf [("e1", ⟨[("A", [2, 1]), ("B", [1, 2])], some 0⟩),
                 ("e2", ⟨[("A", [1, 2]), ("B", [2, 1])], some 1⟩),
                 ("e3", ⟨[("A", [0, 3]), ("B", [1, 0])], some 1⟩)])
        (fusionPreds simpleAvgPredict
          [("e1", ⟨[("A", [2, 1]), ("B", [1, 2])], some 0⟩),
           ("e2", ⟨[("A", [1, 2]), ("B", [2, 1])], some 1⟩),
           ("e3", ⟨[("A", [0, 3]), ("B", [1, 0])], some 1⟩)]) = 2/3 := by
  have h : fusionPreds simpleAvgPredict
      [("e1", ⟨[("A", [2, 1]), ("B", [1, 2])], some 0⟩),
       ("e2", ⟨[("A", [1, 2]), ("B", [2, 1])], some 1⟩),
       ("e3", ⟨[("A", [0, 3]), ("B", [1, 0])], some 1⟩)] = [0, 0, 1] := by
    simp [fusionPreds, simpleAvgPredict, pyCols, argmaxIdx, idxOfQ, vmax,
      List.range, List.range.loop, List.foldl] <;> norm_num
  refine ⟨h, ?_⟩
  rw [h]
  simp [accScore, gthsOf, List.countP, List.countP.go] <;> norm_num

/-- C6: every argmax-based strategy breaks ties by the first index achieving
the maximum: the argmax of a two-way tie is 0 for every value, and each of
interaction_type, simple_average, weighted_average, max_fusion and
softmax_fusion predicts class 0 on a concrete input whose combined score
vector is a two-way tie ([3/10, 3/10] for the raw-logit strategies, a tied
probability vector for softmax_fusion with an arbitrary exponential). -/
theorem c6_argmax_tie_break :
    (∀ x : ℚ, argmaxIdx [x, x] = 0) ∧
    interactionPredict "AS" ⟨[("AS", [3/10, 3/10])], some 0⟩ = 0 ∧
    simpleAvgPredict ⟨[("A", [3/10, 3/10]), ("B", [3/10, 3/10])], some 0⟩ = 0 ∧
    weightedPredict [1/2, 1/2]
        ⟨[("A", [3/10, 3/10]), ("B", [3/10, 3/10])], some 0⟩ = 0 ∧
    maxPredict ⟨[("A", [3/10, 1/10]), ("B", [2/10, 3/10])], some 0⟩ = 0 ∧
    (∀ e : ℚ → ℚ, softmaxPredict e ⟨[("A", [0, 0])], some 0⟩ = 0) := by
  refine ⟨argmaxIdx_same, ?_, ?_, ?_, ?_, ?_⟩
  · simp [interactionPredict, getKey, argmaxIdx, idxOfQ, vmax, List.find?]
  · simp [simpleAvgPredict, pyCols, argmaxIdx, idxOfQ, vmax,
      List.range, List.range.loop, List.foldl] <;> norm_num
  · simp [weightedPredict, argmaxIdx, idxOfQ, vmax, List.range, List.range.loop,
      List.foldl, List.zip, List.zipWith] <;> norm_num
  · simp [maxPredict, pyCols, argmaxIdx, idxOfQ, vmax,
      List.range, List.range.loop, List.foldl] <;> norm_num
  · intro e
    have h : softmaxP e [0, 0] = [e 0 / (e 0 + (e 0 + 0)), e 0 / (e 0 + (e 0 + 0))] := by
      simp [softmaxP]
    simp only [softmaxPredict, List.map, h, pyCols, List.length,
      List.foldl, List.range, List.range.loop]
    simp [argmaxIdx_same, List.range, List.range.loop]

/-- C3 counterexample: under IEEE float64 semantics, where np.exp overflows
to +inf at argument 1000, the softmax expression written in softmax_fusion
and cascaded_fusion (no subtraction of the per-vector maximum) evaluates on
logits [1000, 1000] to [NaN, NaN] (inf/inf), not to [1/2, 1/2]: the claimed
numerical stability fails. -/
theorem c3_softmax_stability_counterexample :
    expF64 1000 = F.inf ∧
    softmaxNaiveF expF64 [1000, 1000] = [F.nan, F.nan] ∧
    softmaxNaiveF expF64 [1000, 1000] ≠ [F.fin (1/2), F.fin (1/2)] := by
  have h : softmaxNaiveF expF64 [1000, 1000] = [F.nan, F.nan] := by
    simp [softmaxNaiveF, expF64, fsum, fadd, fdiv, List.foldl] <;> norm_num
  refine ⟨by simp [expF64] <;> norm_num, h, ?_⟩
  rw [h]
  decide

/-- C3 amended: the softmax inside softmax_fusion and cascaded_fusion is the
naive exp(x)/sum(exp(x)) with no maximum subtraction; for any exponential
that overflows to +inf at 1000 (as IEEE float64 np.exp does), the naive
softmax of [1000, 1000] is [NaN, NaN], while the maximum-subtracting
variant prescribed by the specification returns [1/2, 1/2] whenever the
exponential is finite and positive at 0. -/
theorem c3_softmax_stability_amended (e : ℚ → F)
    (hoverflow : e 1000 = F.inf) :
    softmaxNaiveF e [1000, 1000] = [F.nan, F.nan] ∧
    (∀ c : ℚ, e 0 = F.fin c → 0 < c →
      softmaxStableF e [1000, 1000] = [F.fin (1/2), F.fin (1/2)]) := by
  constructor
  · simp [softmaxNaiveF, hoverflow, fsum, fadd, fdiv, List.foldl]
  · intro c hc hpos
    have hmap : List.map (fun x => x - vmax [1000, 1000]) [1000, 1000] =
        ([0, 0] : List ℚ) := by
      simp [vmax] <;> norm_num
    have hs0 : ¬ ((0 : ℚ) + c + c = 0) := by
      intro h0
      nlinarith
    have hdiv : fdiv (F.fin c) (F.fin (0 + c + c)) = F.fin (1/2) := by
      simp only [fdiv, if_neg hs0]
      congr 1
      have hc0 : c ≠ 0 := ne_of_gt hpos
      field_simp
      ring
    have hfs : fsum [F.fin c, F.fin c] = F.fin (0 + c + c) := by
      simp [fsum, fadd, List.foldl]
    rw [softmaxStableF, hmap]
    simp only [softmaxNaiveF, List.map_cons, List.map_nil, hfs, hc, hdiv]

/-- Witness for the amended C3: the IEEE float64 exponential model overflows
at 1000 and is finite positive at 0, so the naive softmax of [1000, 1000] is
[NaN, NaN] while the stable softmax is [1/2, 1/2]. -/
theorem c3_softmax_stability_amended_witness :
    softmaxNaiveF expF64 [1000, 1000] = [F.nan, F.nan] ∧
    softmaxStableF expF64 [1000, 1000] = [F.fin (1/2), F.fin (1/2)] :=
  ⟨(c3_softmax_stability_amended expF64 (by norm_num [expF64])).1,
   (c3_softmax_stability_amended expF64 (by norm_num [expF64])).2 1
     (by norm_num [expF64]) (by norm_num)⟩

/-- No true positives when no positives are predicted. -/
theorem tpOf_eq_zero_left (gths : List ℤ) (preds : List ℕ)
    (h : preds.countP (fun x => x == 1) = 0) : tpOf gths preds = 0 := by
  rw [List.countP_eq_zero] at h
  rw [tpOf, List.countP_eq_zero]
  intro p hp
  have h2 := h p.2 (List.of_mem_zip hp).2
  simp only [Bool.and_eq_true, not_and]
  intro _
  exact h2

/-- No true positives when there are no actual positives. -/
theorem tpOf_eq_zero_right (gths : List ℤ) (preds : List ℕ)
    (h : gths.countP (fun x => x == 1) = 0) : tpOf gths preds = 0 := by
  rw [List.countP_eq_zero] at h
  rw [tpOf, List.countP_eq_zero]
  intro p hp
  have h1 := h p.1 (List.of_mem_zip hp).1
  simp only [Bool.and_eq_true, not_and]
  intro hp1
  exact absurd hp1 h1

/-- C7: metric evaluation never hits an undefined zero-division value: when
the prediction sequence contains no positives or the target sequence
contains no positives, precision, recall and f1 for the positive class are
each 0; in particular, for predictions all class 0 and targets all class 1,
precision, recall, f1 and accuracy are all 0 (the functions are total, so
no exception can be raised). -/
theorem c7_metrics_zero_division :
    (∀ (gths : List ℤ) (preds : List ℕ),
      preds.countP (fun x => x == 1) = 0 ∨ gths.countP (fun x => x == 1) = 0 →
      precScore gths preds = 0 ∧ recScore gths preds = 0 ∧
        f1Score gths preds = 0) ∧
    (precScore [1, 1, 1] [0, 0, 0] = 0 ∧ recScore [1, 1, 1] [0, 0, 0] = 0 ∧
      f1Score [1, 1, 1] [0, 0, 0] = 0 ∧ accScore [1, 1, 1] [0, 0, 0] = 0) := by
  constructor
  · intro gths preds h
    have htp : tpOf gths preds = 0 := by
      cases h with
      | inl h => exact tpOf_eq_zero_left gths preds h
      | inr h => exact tpOf_eq_zero_right gths preds h
    have hp : precScore gths preds = 0 := by
      simp only [precScore]
      by_cases hpp : preds.countP (fun x => x == 1) = 0
      · rw [if_pos hpp]
      · rw [if_neg hpp, htp]
        simp
    have hr : recScore gths preds = 0 := by
      simp only [recScore]
      by_cases hap : gths.countP (fun x => x == 1) = 0
      · rw [if_pos hap]
      · rw [if_neg hap, htp]
        simp
    refine ⟨hp, hr, ?_⟩
    simp only [f1Score, hp, hr]
    norm_num
  · refine ⟨?_, ?_, ?_, ?_⟩ <;>
      simp [precScore, recScore, f1Score, accScore, tpOf,
        List.countP, List.countP.go] <;> norm_num

/-- Witness for C7: the general zero-division clause applied at predictions
[0, 0] against targets [1, 1]. -/
theorem c7_metrics_zero_division_witness :
    precScore [1, 1] [0, 0] = 0 ∧ recScore [1, 1] [0, 0] = 0 ∧
      f1Score [1, 1] [0, 0] = 0 :=
  c7_metrics_zero_division.1 [1, 1] [0, 0] (Or.inl (by decide))

/-- C9 counterexample: a weights list with an entry missing for expert B
(present in the logits dictionary) does not fail with any error: the call
returns a normal prediction, computed by silently ignoring B through zip
truncation (class 1 here), while supplying B's weight changes the
prediction to class 0. -/
theorem c9_missing_weight_counterexample :
    weightedPredict [1] ⟨[("A", [0, 1]), ("B", [10, 0])], some 0⟩ = 1 ∧
    weightedPredict [1, 1] ⟨[("A", [0, 1]), ("B", [10, 0])], some 0⟩ = 0 := by
  constructor <;>
    simp [weightedPredict, argmaxIdx, idxOfQ, vmax, List.range, List.range.loop,
      List.foldl, List.zip, List.zipWith] <;> norm_num

/-- Zip truncates to its shorter argument. -/
theorem zip_append_of_le {α β : Type} (ws : List α) (l1 l2 : List β)
    (h : ws.length ≤ l1.length) : ws.zip (l1 ++ l2) = ws.zip l1 := by
  induction ws generalizing l1 with
  | nil => simp
  | cons w ws ih =>
      cases l1 with
      | nil => simp at h
      | cons v l1 =>
          simp only [List.cons_append, List.zip_cons_cons, List.cons.injEq, true_and]
          exact ih l1 (by simpa using h)

/-- C9 amended: weighted_average_fusion receives the weights as a list
zipped against the expert score vectors in dictionary order; when the list
is shorter than the number of experts there is no ConfigurationError:
experts beyond the weight list are silently dropped by zip truncation, so
appending further experts (and changing the target) never changes the
prediction; with one weight per expert the strategy predicts the argmax of
the elementwise weighted sum. -/
theorem c9_weight_zip_truncation (ws : List ℚ)
    (logits extra : List (String × List ℚ)) (tg tg' : Option ℤ)
    (hne : logits ≠ [])
    (hlen : ws.length ≤ logits.length) :
    weightedPredict ws ⟨logits ++ extra, tg⟩ = weightedPredict ws ⟨logits, tg'⟩ := by
  cases logits with
  | nil => exact absurd rfl hne
  | cons p rest =>
      simp only [weightedPredict, List.map_append, List.map_cons,
        List.cons_append, List.headD_cons]
      rw [← List.cons_append, zip_append_of_le]
      simpa using hlen

/-- Witness for the amended C9: with a single weight and experts A and B,
the prediction equals the prediction on A alone: B is silently ignored. -/
theorem c9_weight_zip_truncation_witness :
    weightedPredict [1] ⟨[("A", [0, 1]), ("B", [10, 0])], some 0⟩ =
      weightedPredict [1] ⟨[("A", [0, 1])], some 1⟩ :=
  c9_weight_zip_truncation [1] [("A", [0, 1])] [("B", [10, 0])] (some 0) (some 1)
    (List.cons_ne_nil _ _) (by norm_num)

/-- C4 counterexample: two records for the same example_id (img_hello) with
targets 0 and 1 make the loader abort with the assertion error, but the
fixed assertion message does not contain the conflicting example_id. -/
theorem c4_error_message_counterexample :
    loadFiles [("R", [⟨"img", "hello", [1, 2], 0⟩]),
               ("U", [⟨"img", "hello", [3, 4], 1⟩])] = .error assertMsg ∧
    strContainsSub assertMsg (Record.dataId ⟨"img", "hello", [1, 2], 0⟩) = false := by
  constructor
  · simp [loadFiles, loadFilesFrom, loadRecs, loadStep, Record.dataId,
      getKey, setKey, Entry.empty, List.find?]
  · decide

/-- Prefix test fails when the pattern holds a character absent from the
text. -/
theorem startsWithLC_eq_false (pat : List Char) (c : Char) (hc : c ∈ pat) :
    ∀ hay : List Char, c ∉ hay → startsWithLC pat hay = false := by
  induction pat with
  | nil => exact absurd hc (List.not_mem_nil c)
  | cons a as ih =>
      intro hay hn
      cases hay with
      | nil => rfl
      | cons b bs =>
          show (a == b && startsWithLC as bs) = false
          rcases List.mem_cons.mp hc with hca | hcas
          · subst hca
            have hab : (c == b) = false := by
              simp only [List.mem_cons, not_or] at hn
              simpa using hn.1
            simp [hab]
          · by_cases hab : (a == b) = true
            · have hbs : c ∉ bs := by
                simp only [List.mem_cons, not_or] at hn
                exact hn.2
              simp [hab, ih hcas bs hbs]
            · simp [Bool.eq_false_iff.mpr hab]

/-- Occurrence test fails when the pattern holds a character absent from the
text. -/
theorem containsLC_eq_false (pat : List Char) (c : Char) (hc : c ∈ pat) :
    ∀ hay : List Char, c ∉ hay → containsLC pat hay = false := by
  intro hay
  induction hay with
  | nil =>
      intro _
      show startsWithLC pat [] = false
      exact startsWithLC_eq_false pat c hc [] (List.not_mem_nil c)
  | cons b bs ih =>
      intro hn
      show (startsWithLC pat (b :: bs) || containsLC pat bs) = false
      have hbs : c ∉ bs := by
        simp only [List.mem_cons, not_or] at hn
        exact hn.2
      simp [startsWithLC_eq_false pat c hc (b :: bs) hn, ih hbs]

/-- Every example_id contains an underscore (the join of image_id and text),
and the fixed assertion message contains none, so the message never names
the conflicting example_id. -/
theorem strContainsSub_assertMsg_dataId (r : Record) :
    strContainsSub assertMsg (Record.dataId r) = false := by
  apply containsLC_eq_false _ '_'
  · obtain ⟨⟨l1⟩, ⟨l2⟩, lg, tg⟩ := r
    simp [Record.dataId, String.toList]
  · decide

/-- C4 amended: when a record arrives whose target differs from the target
already recorded for its example_id, the loader fails with an assertion
error (the DataIntegrityError of the specification) whose message is the
fixed string, which does not name the conflicting example_id; a successful
loader step never changes a target that is already set, so a conflicting
target is never averaged or overwritten, and the failure aborts the run. -/
theorem c4_target_mismatch_amended (name : String) (m : List (String × Entry))
    (r : Record) :
    (∀ e t, getKey m r.dataId = some e → e.target = some t → t ≠ r.target →
      loadStep name m r = .error assertMsg ∧
        strContainsSub assertMsg r.dataId = false) ∧
    (∀ m', loadStep name m r = .ok m' → ∀ id e e', getKey m id = some e →
      getKey m' id = some e' → ∀ t, e.target = some t → e'.target = some t) := by
  constructor
  · intro e t he ht hne
    refine ⟨?_, strContainsSub_assertMsg_dataId r⟩
    simp only [loadStep, he, Option.getD_some, ht]
    rw [if_neg (by simpa using hne)]
  · intro m' hok id e e' he he' t ht
    cases ht0 : ((getKey m r.dataId).getD Entry.empty).target with
    | none =>
        simp only [loadStep, ht0] at hok
        injection hok with hok'
        subst hok'
        by_cases hid : id = r.dataId
        · exfalso
          rw [← hid, he] at ht0
          simp only [Option.getD_some] at ht0
          rw [ht0] at ht
          exact Option.noConfusion ht
        · rw [getKey_setKey, if_neg hid, he] at he'
          injection he' with h3
          rw [← h3]
          exact ht
    | some t0 =>
        simp only [loadStep, ht0] at hok
        by_cases hbeq : (t0 == r.target) = true
        · rw [if_pos hbeq] at hok
          injection hok with hok'
          subst hok'
          by_cases hid : id = r.dataId
          · subst hid
            rw [he] at ht0
            simp only [Option.getD_some] at ht0
            rw [getKey_setKey, if_pos rfl] at he'
            injection he' with he''
            rw [← he'']
            show some t0 = some t
            rw [ht0] at ht
            exact ht
          · rw [getKey_setKey, if_neg hid, he] at he'
            injection he' with h3
            rw [← h3]
            exact ht
        · rw [if_neg hbeq] at hok
          cases hok

/-- Witness for the amended C4: a concrete loader step on a map already
holding target 0 for img_hello, fed a record with target 1, errors with
the fixed message, which does not contain img_hello. -/
theorem c4_target_mismatch_amended_witness :
    loadStep "U" [("img_hello", ⟨[("R", [1, 2])], some 0⟩)]
        ⟨"img", "hello", [3, 4], 1⟩ = .error assertMsg ∧
      strContainsSub assertMsg (Record.dataId ⟨"img", "hello", [3, 4], 1⟩) = false :=
  (c4_target_mismatch_amended "U" [("img_hello", ⟨[("R", [1, 2])], some 0⟩)]
      ⟨"img", "hello", [3, 4], 1⟩).1
    ⟨[("R", [1, 2])], some 0⟩ 0 (by rfl) (by rfl) (by decide)

/-- C10 counterexample: mustard cascaded_fusion shares the softmaxed_probs
dictionary across loop iterations, so the example x (whose logits hold only
expert AS, identically in both maps, with identical target) receives
prediction 0 in a map where the preceding example has confident R and U
pointing at class 0, and prediction 1 in a map where the preceding example
has confident R and U pointing at class 1: the prediction of an example is
not a function of that example alone. -/
theorem c10_cascaded_state_leak_counterexample :
    mustardCascadedPreds idQ (7/10)
        [("a", ⟨[("R", [9, 1]), ("U", [8, 2]), ("AS", [1, 9])], some 0⟩),
         ("x", ⟨[("AS", [5, 5])], some 0⟩)] = [some 0, some 0] ∧
    mustardCascadedPreds idQ (7/10)
        [("b", ⟨[("R", [1, 9]), ("U", [2, 8]), ("AS", [1, 9])], some 0⟩),
         ("x", ⟨[("AS", [5, 5])], some 0⟩)] = [some 1, some 1] ∧
    (mustardCascadedPreds idQ (7/10)
        [("a", ⟨[("R", [9, 1]), ("U", [8, 2]), ("AS", [1, 9])], some 0⟩),
         ("x", ⟨[("AS", [5, 5])], some 0⟩)]).getD 1 none ≠
      (mustardCascadedPreds idQ (7/10)
        [("b", ⟨[("R", [1, 9]), ("U", [2, 8]), ("AS", [1, 9])], some 0⟩),
         ("x", ⟨[("AS", [5, 5])], some 0⟩)]).getD 1 none := by
  have h1 : mustardCascadedPreds idQ (7/10)
      [("a", ⟨[("R", [9, 1]), ("U", [8, 2]), ("AS", [1, 9])], some 0⟩),
       ("x", ⟨[("AS", [5, 5])], some 0⟩)] = [some 0, some 0] := by
    simp [mustardCascadedPreds, cascStep, softmaxP, idQ, getKey, setKey, vmax,
      argmaxIdx, idxOfQ, List.find?, List.foldl] <;> norm_num
  have h2 : mustardCascadedPreds idQ (7/10)
      [("b", ⟨[("R", [1, 9]), ("U", [2, 8]), ("AS", [1, 9])], some 0⟩),
       ("x", ⟨[("AS", [5, 5])], some 0⟩)] = [some 1, some 1] := by
    simp [mustardCascadedPreds, cascStep, softmaxP, idQ, getKey, setKey, vmax,
      argmaxIdx, idxOfQ, List.find?, List.foldl] <;> norm_num
  refine ⟨h1, h2, ?_⟩
  rw [h1, h2]
  decide

/-- Example whose logits dictionary has unique keys and holds all three of
the cascade experts R, U and AS. -/
def HasRUAS (data : Entry) : Prop :=
  (data.logits.map Prod.fst).Nodup ∧
  (getKey data.logits "R").isSome ∧
  (getKey data.logits "U").isSome ∧
  (getKey data.logits "AS").isSome

instance (data : Entry) : Decidable (HasRUAS data) := by
  unfold HasRUAS
  infer_instance

/-- Incoming state does not affect the cascaded prediction of an example
holding all three cascade experts. -/
theorem cascStep_snd_state_free (e : ℚ → ℚ) (t : ℚ) (s : List (String × List ℚ))
    (data : Entry) (h : HasRUAS data) :
    (cascStep e t s data).2 = (cascStep e t [] data).2 := by
  obtain ⟨hn, hR, hU, hAS⟩ := h
  obtain ⟨lR, hR⟩ := Option.isSome_iff_exists.mp hR
  obtain ⟨lU, hU⟩ := Option.isSome_iff_exists.mp hU
  obtain ⟨lAS, hAS⟩ := Option.isSome_iff_exists.mp hAS
  rw [cascStep_snd e t s data lR lU lAS hn hR hU hAS,
    cascStep_snd e t [] data lR lU lAS hn hR hU hAS]

/-- Fold form of the mustard cascaded loop on a map of complete examples. -/
theorem mustardFold_eq_map (e : ℚ → ℚ) (t : ℚ) (results : List (String × Entry))
    (h : ∀ p ∈ results, HasRUAS p.2) :
    ∀ (s : List (String × List ℚ)) (acc : List (Option ℕ)),
      (results.foldl
        (fun acc2 p =>
          let r := cascStep e t acc2.1 p.2
          (r.1, acc2.2 ++ [r.2])) (s, acc)).2 =
        acc ++ results.map (fun p => cascadedPredict e t p.2) := by
  induction results with
  | nil => intro s acc ; simp
  | cons p rest ih =>
      intro s acc
      have hp : HasRUAS p.2 := h p (List.mem_cons_self p rest)
      have hrest : ∀ q ∈ rest, HasRUAS q.2 :=
        fun q hq => h q (List.mem_cons_of_mem p hq)
      rw [List.foldl_cons]
      rw [ih hrest]
      rw [cascStep_snd_state_free e t s p.2 hp]
      simp [cascadedPredict]

/-- C10 amended: each per-example strategy is a pure function of the single
example; for cascaded_fusion this holds in the sarc variant by construction
(fresh dictionary per example) and in the mustard variant only for examples
holding all of R, U and AS: for such examples the inherited softmaxed_probs
dictionary does not affect the prediction, and on a map all of whose
examples are complete the mustard prediction sequence is the elementwise
image of the pure per-example prediction, so adding, removing or reordering
other examples cannot change an example's prediction. For an example
missing one of the three experts, the mustard variant can leak state from
earlier examples (see the counterexample). -/
theorem c10_cascaded_purity_amended (e : ℚ → ℚ) (t : ℚ) :
    (∀ (data : Entry) (s : List (String × List ℚ)), HasRUAS data →
      (cascStep e t s data).2 = cascadedPredict e t data) ∧
    (∀ results : List (String × Entry), (∀ p ∈ results, HasRUAS p.2) →
      mustardCascadedPreds e t results =
        results.map (fun p => cascadedPredict e t p.2)) := by
  constructor
  · intro data s hdata
    rw [cascadedPredict]
    exact cascStep_snd_state_free e t s data hdata
  · intro results h
    rw [mustardCascadedPreds, mustardFold_eq_map e t results h]
    simp

/-- Witness for the amended C10: a complete example predicts the same class
from a poisoned incoming dictionary as from the empty one. -/
theorem c10_cascaded_purity_amended_witness :
    (cascStep idQ (1/2) [("R", [9/10, 1/10])]
        ⟨[("R", [81, 19]), ("U", [7, 3]), ("AS", [1, 9])], some 0⟩).2 =
      cascadedPredict idQ (1/2)
        ⟨[("R", [81, 19]), ("U", [7, 3]), ("AS", [1, 9])], some 0⟩ :=
  (c10_cascaded_purity_amended idQ (1/2)).1
    ⟨[("R", [81, 19]), ("U", [7, 3]), ("AS", [1, 9])], some 0⟩
    [("R", [9/10, 1/10])] (by decide)

/-! Machinery for the loading-commutativity claim: extensional equality of
aggregated indices, and commutation of loader steps over distinct expert
names. -/

/-- Extensional equality of per-example aggregates: same target and same
expert-to-logits mapping. -/
def EntryEquiv (a b : Entry) : Prop :=
  a.target = b.target ∧ ∀ n, getKey a.logits n = getKey b.logits n

/-- EntryEquiv lifted to optional entries (present on both sides and
equivalent, or absent on both sides). -/
def OptEntryEquiv : Option Entry → Option Entry → Prop
  | some a, some b => EntryEquiv a b
  | none, none => True
  | _, _ => False

/-- Extensional equality of results maps: the same set of example_ids and,
for each id, the same logits mapping and the same target. -/
def ResultsEquiv (m m' : List (String × Entry)) : Prop :=
  ∀ id, OptEntryEquiv (getKey m id) (getKey m' id)

/-- Same loader outcome, up to extensional equality of the result maps. -/
def LoadEquiv : Except String (List (String × Entry)) →
    Except String (List (String × Entry)) → Prop
  | .ok m, .ok m' => ResultsEquiv m m'
  | .error a, .error b => a = b
  | _, _ => False

theorem entryEquiv_refl (a : Entry) : EntryEquiv a a :=
  ⟨rfl, fun _ => rfl⟩

theorem entryEquiv_symm {a b : Entry} (h : EntryEquiv a b) : EntryEquiv b a :=
  ⟨h.1.symm, fun n => (h.2 n).symm⟩

theorem entryEquiv_trans {a b c : Entry} (h1 : EntryEquiv a b)
    (h2 : EntryEquiv b c) : EntryEquiv a c :=
  ⟨h1.1.trans h2.1, fun n => (h1.2 n).trans (h2.2 n)⟩

theorem optEntryEquiv_refl (o : Option Entry) : OptEntryEquiv o o := by
  cases o
  · trivial
  · exact entryEquiv_refl _

theorem resultsEquiv_refl (m : List (String × Entry)) : ResultsEquiv m m :=
  fun _ => optEntryEquiv_refl _

theorem optEntryEquiv_symm {o o' : Option Entry} (h : OptEntryEquiv o o') :
    OptEntryEquiv o' o := by
  cases o <;> cases o' <;> first
    | trivial
    | exact h.elim
    | exact entryEquiv_symm h

theorem optEntryEquiv_trans {o o' o'' : Option Entry} (h1 : OptEntryEquiv o o')
    (h2 : OptEntryEquiv o' o'') : OptEntryEquiv o o'' := by
  cases o <;> cases o' <;> cases o'' <;> first
    | trivial
    | exact h1.elim
    | exact h2.elim
    | exact entryEquiv_trans h1 h2

theorem resultsEquiv_symm {m m' : List (String × Entry)}
    (h : ResultsEquiv m m') : ResultsEquiv m' m :=
  fun id => optEntryEquiv_symm (h id)

theorem resultsEquiv_trans {m m' m'' : List (String × Entry)}
    (h1 : ResultsEquiv m m') (h2 : ResultsEquiv m' m'') : ResultsEquiv m m'' :=
  fun id => optEntryEquiv_trans (h1 id) (h2 id)

theorem loadEquiv_refl (x : Except String (List (String × Entry))) :
    LoadEquiv x x := by
  cases x
  · rfl
  · exact resultsEquiv_refl _

theorem loadEquiv_trans {x y z : Except String (List (String × Entry))}
    (h1 : LoadEquiv x y) (h2 : LoadEquiv y z) : LoadEquiv x z := by
  cases x <;> cases y <;> cases z <;> first
    | exact h1.elim
    | exact h2.elim
    | exact h1.trans h2
    | exact resultsEquiv_trans h1 h2

theorem resultsEquiv_setKey {m m' : List (String × Entry)} (id : String)
    {v v' : Entry} (hm : ResultsEquiv m m') (hv : EntryEquiv v v') :
    ResultsEquiv (setKey m id v) (setKey m' id v') := by
  intro k
  rw [getKey_setKey, getKey_setKey]
  by_cases h : k = id
  · rw [if_pos h, if_pos h]
    exact hv
  · rw [if_neg h, if_neg h]
    exact hm k

theorem resultsEquiv_setKey_twice (m : List (String × Entry)) (id : String)
    (a b : Entry) :
    ResultsEquiv (setKey (setKey m id a) id b) (setKey m id b) := by
  intro k
  rw [getKey_setKey, getKey_setKey, getKey_setKey]
  by_cases h : k = id
  · rw [if_pos h, if_pos h]
    exact entryEquiv_refl _
  · rw [if_neg h, if_neg h, if_neg h]
    exact optEntryEquiv_refl _

theorem resultsEquiv_setKey_swap (m : List (String × Entry)) (id1 id2 : String)
    (v1 v2 : Entry) (h : id1 ≠ id2) :
    ResultsEquiv (setKey (setKey m id1 v1) id2 v2)
      (setKey (setKey m id2 v2) id1 v1) := by
  intro k
  rw [getKey_setKey, getKey_setKey, getKey_setKey, getKey_setKey]
  by_cases h2 : k = id2
  · have h1 : ¬ k = id1 := fun h1 => h (h1.symm.trans h2)
    rw [if_pos h2, if_neg h1, if_pos h2]
    exact optEntryEquiv_refl _
  · rw [if_neg h2]
    by_cases h1 : k = id1
    · rw [if_pos h1, if_pos h1]
      exact optEntryEquiv_refl _
    · rw [if_neg h1, if_neg h1, if_neg h2]
      exact optEntryEquiv_refl _

theorem getKey_setKey_setKey_comm {β : Type} (L : List (String × β))
    (n1 n2 : String) (v1 v2 : β) (h : n1 ≠ n2) (k : String) :
    getKey (setKey (setKey L n1 v1) n2 v2) k =
      getKey (setKey (setKey L n2 v2) n1 v1) k := by
  rw [getKey_setKey, getKey_setKey, getKey_setKey, getKey_setKey]
  by_cases h2 : k = n2
  · have h1 : ¬ k = n1 := fun h1 => h (h1.symm.trans h2)
    rw [if_pos h2, if_neg h1, if_pos h2]
  · rw [if_neg h2]
    by_cases h1 : k = n1
    · rw [if_pos h1, if_pos h1]
    · rw [if_neg h1, if_neg h1, if_neg h2]

/-- Loader step on an example whose target is not yet recorded. -/
theorem loadStep_target_none (name : String) (m : List (String × Entry))
    (r : Record)
    (h : ((getKey m r.dataId).getD Entry.empty).target = none) :
    loadStep name m r = .ok (setKey m r.dataId
      ⟨setKey ((getKey m r.dataId).getD Entry.empty).logits name r.logits,
        some r.target⟩) := by
  simp only [loadStep, h]

/-- Loader step on an example whose recorded target matches the record. -/
theorem loadStep_target_eq (name : String) (m : List (String × Entry))
    (r : Record) (t : ℤ)
    (h : ((getKey m r.dataId).getD Entry.empty).target = some t)
    (he : t = r.target) :
    loadStep name m r = .ok (setKey m r.dataId
      ⟨setKey ((getKey m r.dataId).getD Entry.empty).logits name r.logits,
        some t⟩) := by
  simp only [loadStep, h]
  rw [if_pos (by simpa using he)]

/-- Loader step on an example whose recorded target conflicts with the
record: the run aborts with the fixed assertion message. -/
theorem loadStep_target_ne (name : String) (m : List (String × Entry))
    (r : Record) (t : ℤ)
    (h : ((getKey m r.dataId).getD Entry.empty).target = some t)
    (hne : t ≠ r.target) :
    loadStep name m r = .error assertMsg := by
  simp only [loadStep, h]
  rw [if_neg (by simpa using hne)]

/-- Explicit sequencing of loader stages (Python control flow: an assertion
failure aborts everything that follows). -/
def bindE (x : Except String (List (String × Entry)))
    (f : List (String × Entry) → Except String (List (String × Entry))) :
    Except String (List (String × Entry)) :=
  match x with
  | .ok m => f m
  | .error msg => .error msg

theorem loadRecs_cons (n : String) (m : List (String × Entry)) (r : Record)
    (rs : List Record) :
    loadRecs n m (r :: rs) = bindE (loadStep n m r) (fun m' => loadRecs n m' rs) := by
  cases h : loadStep n m r <;> simp [loadRecs, bindE, h]

theorem loadFilesFrom_cons (m : List (String × Entry))
    (f : String × List Record) (fs : List (String × List Record)) :
    loadFilesFrom m (f :: fs) =
      bindE (loadRecs f.1 m f.2) (fun m' => loadFilesFrom m' fs) := by
  cases h : loadRecs f.1 m f.2 <;> simp [loadFilesFrom, bindE, h]

theorem bindE_congr {x x' : Except String (List (String × Entry))}
    {f f' : List (String × Entry) → Except String (List (String × Entry))}
    (hx : LoadEquiv x x')
    (hf : ∀ m m', ResultsEquiv m m' → LoadEquiv (f m) (f' m')) :
    LoadEquiv (bindE x f) (bindE x' f') := by
  cases x <;> cases x'
  · exact hx
  · exact hx.elim
  · exact hx.elim
  · exact hf _ _ hx

theorem bindE_assoc (x : Except String (List (String × Entry))) (f g) :
    bindE (bindE x f) g = bindE x (fun m => bindE (f m) g) := by
  cases x <;> rfl

theorem getD_entry_setKey_ne (m : List (String × Entry)) (id id' : String)
    (v : Entry) (h : ¬ id = id') :
    (getKey (setKey m id' v) id).getD Entry.empty =
      (getKey m id).getD Entry.empty := by
  rw [getKey_setKey, if_neg h]

theorem getD_entry_setKey_self (m : List (String × Entry)) (id : String)
    (v : Entry) :
    (getKey (setKey m id v) id).getD Entry.empty = v := by
  rw [getKey_setKey, if_pos rfl]
  rfl

/-- Loader steps for two records commute up to extensional equality of the
outcome, provided the two expert names differ (the only loop-order
dependent state is the per-expert logits slot and the target, and targets
conflict in one order exactly when they conflict in the other, always with
the same fixed error message). -/
theorem loadStep_comm (n1 n2 : String) (r1 r2 : Record) (hne : n1 ≠ n2)
    (m : List (String × Entry)) :
    LoadEquiv (bindE (loadStep n1 m r1) (fun m1 => loadStep n2 m1 r2))
      (bindE (loadStep n2 m r2) (fun m2 => loadStep n1 m2 r1)) := by
  by_cases hid : r1.dataId = r2.dataId
  · -- same example touched twice: the shared entry is updated in two
    -- different logits slots, and the target checks agree in both orders
    cases ht : ((getKey m r1.dataId).getD Entry.empty).target with
    | none =>
        have ht2 : ((getKey m r2.dataId).getD Entry.empty).target = none := by
          rw [← hid] ; exact ht
        rw [loadStep_target_none n1 m r1 ht, loadStep_target_none n2 m r2 ht2]
        simp only [bindE]
        by_cases hrt : r1.target = r2.target
        · have hE1 : ((getKey (setKey m r1.dataId
              ⟨setKey ((getKey m r1.dataId).getD Entry.empty).logits n1 r1.logits,
                some r1.target⟩) r2.dataId).getD Entry.empty).target =
              some r1.target := by
            rw [← hid, getD_entry_setKey_self]
          have hE2 : ((getKey (setKey m r2.dataId
              ⟨setKey ((getKey m r2.dataId).getD Entry.empty).logits n2 r2.logits,
                some r2.target⟩) r1.dataId).getD Entry.empty).target =
              some r2.target := by
            rw [hid, getD_entry_setKey_self]
          rw [loadStep_target_eq n2 _ r2 r1.target hE1 hrt,
            loadStep_target_eq n1 _ r1 r2.target hE2 hrt.symm]
          rw [← hid] at *
          rw [getD_entry_setKey_self, getD_entry_setKey_self]
          refine resultsEquiv_trans (resultsEquiv_setKey_twice m r1.dataId _ _)
            (resultsEquiv_trans (resultsEquiv_setKey r1.dataId
              (resultsEquiv_refl m) ?_)
              (resultsEquiv_symm (resultsEquiv_setKey_twice m r1.dataId _ _)))
          refine ⟨by rw [hrt], ?_⟩
          exact getKey_setKey_setKey_comm _ n1 n2 r1.logits r2.logits hne
        · have hE1 : ((getKey (setKey m r1.dataId
              ⟨setKey ((getKey m r1.dataId).getD Entry.empty).logits n1 r1.logits,
                some r1.target⟩) r2.dataId).getD Entry.empty).target =
              some r1.target := by
            rw [← hid, getD_entry_setKey_self]
          have hE2 : ((getKey (setKey m r2.dataId
              ⟨setKey ((getKey m r2.dataId).getD Entry.empty).logits n2 r2.logits,
                some r2.target⟩) r1.dataId).getD Entry.empty).target =
              some r2.target := by
            rw [hid, getD_entry_setKey_self]
          rw [loadStep_target_ne n2 _ r2 r1.target hE1 hrt,
            loadStep_target_ne n1 _ r1 r2.target hE2 (fun h => hrt h.symm)]
          rfl
    | some t =>
        have ht2 : ((getKey m r2.dataId).getD Entry.empty).target = some t := by
          rw [← hid] ; exact ht
        by_cases h1t : t = r1.target
        · rw [loadStep_target_eq n1 m r1 t ht h1t]
          simp only [bindE]
          have hE1 : ((getKey (setKey m r1.dataId
              ⟨setKey ((getKey m r1.dataId).getD Entry.empty).logits n1 r1.logits,
                some t⟩) r2.dataId).getD Entry.empty).target = some t := by
            rw [← hid, getD_entry_setKey_self]
          by_cases h2t : t = r2.target
          · rw [loadStep_target_eq n2 m r2 t ht2 h2t]
            simp only [bindE]
            have hE2 : ((getKey (setKey m r2.dataId
                ⟨setKey ((getKey m r2.dataId).getD Entry.empty).logits n2 r2.logits,
                  some t⟩) r1.dataId).getD Entry.empty).target = some t := by
              rw [hid, getD_entry_setKey_self]
            rw [loadStep_target_eq n2 _ r2 t hE1 h2t,
              loadStep_target_eq n1 _ r1 t hE2 h1t]
            rw [← hid] at *
            rw [getD_entry_setKey_self, getD_entry_setKey_self]
            refine resultsEquiv_trans (resultsEquiv_setKey_twice m r1.dataId _ _)
              (resultsEquiv_trans (resultsEquiv_setKey r1.dataId
                (resultsEquiv_refl m) ?_)
                (resultsEquiv_symm (resultsEquiv_setKey_twice m r1.dataId _ _)))
            exact ⟨rfl, getKey_setKey_setKey_comm _ n1 n2 r1.logits r2.logits hne⟩
          · rw [loadStep_target_ne n2 _ r2 t hE1 h2t,
              loadStep_target_ne n2 m r2 t ht2 h2t]
            rfl
        · rw [loadStep_target_ne n1 m r1 t ht h1t]
          simp only [bindE]
          by_cases h2t : t = r2.target
          · rw [loadStep_target_eq n2 m r2 t ht2 h2t]
            simp only [bindE]
            have hE2 : ((getKey (setKey m r2.dataId
                ⟨setKey ((getKey m r2.dataId).getD Entry.empty).logits n2 r2.logits,
                  some t⟩) r1.dataId).getD Entry.empty).target = some t := by
              rw [hid, getD_entry_setKey_self]
            rw [loadStep_target_ne n1 _ r1 t hE2 h1t]
            rfl
          · rw [loadStep_target_ne n2 m r2 t ht2 h2t]
            rfl
  · -- distinct examples: the two steps touch disjoint entries
    have hid' : ¬ r2.dataId = r1.dataId := fun h => hid h.symm
    cases ht1 : ((getKey m r1.dataId).getD Entry.empty).target with
    | none =>
        rw [loadStep_target_none n1 m r1 ht1]
        simp only [bindE]
        have hkeep2 : ∀ v : Entry, (getKey (setKey m r1.dataId v)
            r2.dataId).getD Entry.empty = (getKey m r2.dataId).getD Entry.empty :=
          fun v => getD_entry_setKey_ne m r2.dataId r1.dataId v hid'
        cases ht2 : ((getKey m r2.dataId).getD Entry.empty).target with
        | none =>
            rw [loadStep_target_none n2 m r2 ht2]
            simp only [bindE]
            rw [loadStep_target_none n2 _ r2 (by rw [hkeep2] ; exact ht2),
              loadStep_target_none n1 _ r1
                (by rw [getD_entry_setKey_ne m r1.dataId r2.dataId _ hid] ; exact ht1)]
            rw [hkeep2, getD_entry_setKey_ne m r1.dataId r2.dataId _ hid]
            exact resultsEquiv_setKey_swap m r1.dataId r2.dataId _ _ hid
        | some t2 =>
            by_cases h2t : t2 = r2.target
            · rw [loadStep_target_eq n2 m r2 t2 ht2 h2t]
              simp only [bindE]
              rw [loadStep_target_eq n2 _ r2 t2 (by rw [hkeep2] ; exact ht2) h2t,
                loadStep_target_none n1 _ r1
                  (by rw [getD_entry_setKey_ne m r1.dataId r2.dataId _ hid] ; exact ht1)]
              rw [hkeep2, getD_entry_setKey_ne m r1.dataId r2.dataId _ hid]
              exact resultsEquiv_setKey_swap m r1.dataId r2.dataId _ _ hid
            · rw [loadStep_target_ne n2 m r2 t2 ht2 h2t,
                loadStep_target_ne n2 _ r2 t2 (by rw [hkeep2] ; exact ht2) h2t]
              rfl
    | some t1 =>
        by_cases h1t : t1 = r1.target
        · rw [loadStep_target_eq n1 m r1 t1 ht1 h1t]
          simp only [bindE]
          have hkeep2 : ∀ v : Entry, (getKey (setKey m r1.dataId v)
              r2.dataId).getD Entry.empty = (getKey m r2.dataId).getD Entry.empty :=
            fun v => getD_entry_setKey_ne m r2.dataId r1.dataId v hid'
          cases ht2 : ((getKey m r2.dataId).getD Entry.empty).target with
          | none =>
              rw [loadStep_target_none n2 m r2 ht2]
              simp only [bindE]
              rw [loadStep_target_none n2 _ r2 (by rw [hkeep2] ; exact ht2),
                loadStep_target_eq n1 _ r1 t1
                  (by rw [getD_entry_setKey_ne m r1.dataId r2.dataId _ hid] ; exact ht1)
                  h1t]
              rw [hkeep2, getD_entry_setKey_ne m r1.dataId r2.dataId _ hid]
              exact resultsEquiv_setKey_swap m r1.dataId r2.dataId _ _ hid
          | some t2 =>
              by_cases h2t : t2 = r2.target
              · rw [loadStep_target_eq n2 m r2 t2 ht2 h2t]
                simp only [bindE]
                rw [loadStep_target_eq n2 _ r2 t2 (by rw [hkeep2] ; exact ht2) h2t,
                  loadStep_target_eq n1 _ r1 t1
                    (by rw [getD_entry_setKey_ne m r1.dataId r2.dataId _ hid] ; exact ht1)
                    h1t]
                rw [hkeep2, getD_entry_setKey_ne m r1.dataId r2.dataId _ hid]
                exact resultsEquiv_setKey_swap m r1.dataId r2.dataId _ _ hid
              · rw [loadStep_target_ne n2 m r2 t2 ht2 h2t,
                  loadStep_target_ne n2 _ r2 t2 (by rw [hkeep2] ; exact ht2) h2t]
                rfl
        · rw [loadStep_target_ne n1 m r1 t1 ht1 h1t]
          simp only [bindE]
          cases ht2 : ((getKey m r2.dataId).getD Entry.empty).target with
          | none =>
              rw [loadStep_target_none n2 m r2 ht2]
              simp only [bindE]
              rw [loadStep_target_ne n1 _ r1 t1
                (by rw [getD_entry_setKey_ne m r1.dataId r2.dataId _ hid] ; exact ht1)
                h1t]
              rfl
          | some t2 =>
              by_cases h2t : t2 = r2.target
              · rw [loadStep_target_eq n2 m r2 t2 ht2 h2t]
                simp only [bindE]
                rw [loadStep_target_ne n1 _ r1 t1
                  (by rw [getD_entry_setKey_ne m r1.dataId r2.dataId _ hid] ; exact ht1)
                  h1t]
                rfl
              · rw [loadStep_target_ne n2 m r2 t2 ht2 h2t]
                rfl

/-- The entries read by a loader step are extensional, so equivalent maps
step to equivalent outcomes. -/
theorem loadStep_congr (name : String) (r : Record)
    {m m' : List (String × Entry)} (hm : ResultsEquiv m m') :
    LoadEquiv (loadStep name m r) (loadStep name m' r) := by
  have hE : EntryEquiv ((getKey m r.dataId).getD Entry.empty)
      ((getKey m' r.dataId).getD Entry.empty) := by
    have h := hm r.dataId
    cases h1 : getKey m r.dataId <;> cases h2 : getKey m' r.dataId <;>
      rw [h1, h2] at h
    · exact entryEquiv_refl _
    · exact h.elim
    · exact h.elim
    · exact h
  have hlog : ∀ k, getKey (setKey ((getKey m r.dataId).getD Entry.empty).logits
      name r.logits) k =
      getKey (setKey ((getKey m' r.dataId).getD Entry.empty).logits
        name r.logits) k := by
    intro k
    rw [getKey_setKey, getKey_setKey]
    by_cases h : k = name
    · rw [if_pos h, if_pos h]
    · rw [if_neg h, if_neg h]
      exact hE.2 k
  cases ht : ((getKey m r.dataId).getD Entry.empty).target with
  | none =>
      have ht' : ((getKey m' r.dataId).getD Entry.empty).target = none :=
        hE.1.symm.trans ht
      rw [loadStep_target_none name m r ht, loadStep_target_none name m' r ht']
      exact resultsEquiv_setKey _ hm ⟨rfl, hlog⟩
  | some t =>
      have ht' : ((getKey m' r.dataId).getD Entry.empty).target = some t :=
        hE.1.symm.trans ht
      by_cases he : t = r.target
      · rw [loadStep_target_eq name m r t ht he, loadStep_target_eq name m' r t ht' he]
        exact resultsEquiv_setKey _ hm ⟨rfl, hlog⟩
      · rw [loadStep_target_ne name m r t ht he, loadStep_target_ne name m' r t ht' he]
        rfl

/-- Equivalent maps load a file to equivalent outcomes. -/
theorem loadRecs_congr (n : String) (rs : List Record) :
    ∀ {m m' : List (String × Entry)}, ResultsEquiv m m' →
      LoadEquiv (loadRecs n m rs) (loadRecs n m' rs) := by
  induction rs with
  | nil => intro m m' hm ; exact hm
  | cons r rs ih =>
      intro m m' hm
      rw [loadRecs_cons, loadRecs_cons]
      exact bindE_congr (loadStep_congr n r hm) (fun a b hab => ih hab)

/-- Equivalent maps load a list of files to equivalent outcomes. -/
theorem loadFilesFrom_congr (fs : List (String × List Record)) :
    ∀ {m m' : List (String × Entry)}, ResultsEquiv m m' →
      LoadEquiv (loadFilesFrom m fs) (loadFilesFrom m' fs) := by
  induction fs with
  | nil => intro m m' hm ; exact hm
  | cons f fs ih =>
      intro m m' hm
      rw [loadFilesFrom_cons, loadFilesFrom_cons]
      exact bindE_congr (loadRecs_congr f.1 f.2 hm) (fun a b hab => ih hab)

theorem loadEquiv_symm {x y : Except String (List (String × Entry))}
    (h : LoadEquiv x y) : LoadEquiv y x := by
  cases x <;> cases y <;> first
    | exact h.elim
    | exact h.symm
    | exact resultsEquiv_symm h

/-- A single loader step (of one expert record) commutes with loading a
whole file of another expert. -/
theorem loadStep_recs_comm (n1 n2 : String) (hne : n1 ≠ n2) (r1 : Record)
    (rs2 : List Record) :
    ∀ m, LoadEquiv (bindE (loadStep n1 m r1) (fun m1 => loadRecs n2 m1 rs2))
      (bindE (loadRecs n2 m rs2) (fun m2 => loadStep n1 m2 r1)) := by
  induction rs2 with
  | nil =>
      intro m
      have hL : bindE (loadStep n1 m r1) (fun m1 => loadRecs n2 m1 []) =
          loadStep n1 m r1 := by
        cases h : loadStep n1 m r1 <;> rfl
      rw [hL]
      exact loadEquiv_refl _
  | cons r2 rs2 ih =>
      intro m
      simp only [loadRecs_cons]
      rw [bindE_assoc]
      have hcomm := bindE_congr (loadStep_comm n1 n2 r1 r2 hne m)
        (fun a b hab => loadRecs_congr n2 rs2 hab)
      rw [bindE_assoc, bindE_assoc] at hcomm
      refine loadEquiv_trans hcomm
        (bindE_congr (loadEquiv_refl _) (fun a b hab => ?_))
      exact loadEquiv_trans (ih a)
        (bindE_congr (loadRecs_congr n2 rs2 hab)
          (fun c d hcd => loadStep_congr n1 r1 hcd))

/-- Loading two expert files with distinct names commutes up to extensional
equality of the outcome. -/
theorem loadRecs_comm (n1 n2 : String) (hne : n1 ≠ n2)
    (rs1 rs2 : List Record) :
    ∀ m, LoadEquiv (bindE (loadRecs n1 m rs1) (fun m1 => loadRecs n2 m1 rs2))
      (bindE (loadRecs n2 m rs2) (fun m2 => loadRecs n1 m2 rs1)) := by
  induction rs1 with
  | nil =>
      intro m
      have hR : bindE (loadRecs n2 m rs2) (fun m2 => loadRecs n1 m2 []) =
          loadRecs n2 m rs2 := by
        cases h : loadRecs n2 m rs2 <;> rfl
      rw [hR]
      exact loadEquiv_refl _
  | cons r1 rs1 ih =>
      intro m
      simp only [loadRecs_cons]
      rw [bindE_assoc]
      have h1 : LoadEquiv
          (bindE (loadStep n1 m r1)
            (fun m1 => bindE (loadRecs n1 m1 rs1) (fun m2 => loadRecs n2 m2 rs2)))
          (bindE (loadStep n1 m r1)
            (fun m1 => bindE (loadRecs n2 m1 rs2) (fun m2 => loadRecs n1 m2 rs1))) :=
        bindE_congr (loadEquiv_refl _) (fun a b hab =>
          loadEquiv_trans (ih a)
            (bindE_congr (loadRecs_congr n2 rs2 hab)
              (fun c d hcd => loadRecs_congr n1 rs1 hcd)))
      have h2 := bindE_congr (loadStep_recs_comm n1 n2 hne r1 rs2 m)
        (fun a b hab => loadRecs_congr n1 rs1 hab)
      rw [bindE_assoc, bindE_assoc] at h2
      exact loadEquiv_trans h1 h2

/-- Loading a permuted list of expert files (distinct names) from
extensionally equal initial maps gives extensionally equal outcomes. -/
theorem loadFilesFrom_perm {fs fs' : List (String × List Record)}
    (hperm : fs.Perm fs') :
    (fs.map Prod.fst).Nodup → ∀ m m', ResultsEquiv m m' →
      LoadEquiv (loadFilesFrom m fs) (loadFilesFrom m' fs') := by
  induction hperm with
  | nil =>
      intro _ m m' hm
      exact hm
  | cons x h ih =>
      intro hn m m' hm
      simp only [loadFilesFrom_cons]
      refine bindE_congr (loadRecs_congr x.1 x.2 hm) (fun a b hab => ih ?_ a b hab)
      exact (List.nodup_cons.mp (by simpa using hn)).2
  | swap x y l =>
      intro hn m m' hm
      have hyx : y.1 ≠ x.1 := by
        simp only [List.map, List.nodup_cons, List.mem_cons, not_or] at hn
        exact hn.1.1
      simp only [loadFilesFrom_cons]
      rw [← bindE_assoc, ← bindE_assoc]
      refine bindE_congr ?_ (fun a b hab => loadFilesFrom_congr l hab)
      refine loadEquiv_trans (loadRecs_comm y.1 x.1 hyx y.2 x.2 m) ?_
      exact bindE_congr (loadRecs_congr x.1 x.2 hm)
        (fun c d hcd => loadRecs_congr y.1 y.2 hcd)
  | trans h1 h2 ih1 ih2 =>
      intro hn m m' hm
      have hn2 := ((h1.map Prod.fst).nodup_iff).mp hn
      exact loadEquiv_trans (ih1 hn m m (resultsEquiv_refl m)) (ih2 hn2 m m' hm)

/-- All records of a list of expert files. -/
def allRecs : List (String × List Record) → List Record
  | [] => []
  | f :: fs => f.2 ++ allRecs fs

theorem mem_allRecs (r : Record) (fs : List (String × List Record)) :
    r ∈ allRecs fs ↔ ∃ f ∈ fs, r ∈ f.2 := by
  induction fs with
  | nil => simp [allRecs]
  | cons f fs ih => simp [allRecs, List.mem_append, ih]

/-- Consistent targets: any two records sharing an example_id carry the same
target. -/
def RecsConsistent (R : List Record) : Prop :=
  ∀ r1 ∈ R, ∀ r2 ∈ R, r1.dataId = r2.dataId → r1.target = r2.target

/-- Loader-state invariant with respect to a pool of records: every recorded
target agrees with every record of the pool for the same example_id. -/
def InvR (R : List Record) (m : List (String × Entry)) : Prop :=
  ∀ id e, getKey m id = some e → ∀ r ∈ R, r.dataId = id → e.target = some r.target

theorem loadStep_ok_of (R : List Record) (hcons : RecsConsistent R)
    (n : String) (r : Record) (hr : r ∈ R) (m : List (String × Entry))
    (hInv : InvR R m) :
    ∃ m', loadStep n m r = .ok m' ∧ InvR R m' := by
  cases ht : ((getKey m r.dataId).getD Entry.empty).target with
  | none =>
      refine ⟨_, loadStep_target_none n m r ht, ?_⟩
      intro id e hge r' hr' hid
      rw [getKey_setKey] at hge
      by_cases h : id = r.dataId
      · rw [if_pos h] at hge
        injection hge with hge'
        rw [← hge']
        show some r.target = some r'.target
        rw [hcons r hr r' hr' (by rw [hid, h])]
      · rw [if_neg h] at hge
        exact hInv id e hge r' hr' hid
  | some t =>
      have hex : ∃ e0, getKey m r.dataId = some e0 := by
        cases hg : getKey m r.dataId with
        | none =>
            rw [hg] at ht
            exact absurd ht (by simp [Entry.empty])
        | some e0 => exact ⟨e0, rfl⟩
      obtain ⟨e0, he0⟩ := hex
      have he0t : e0.target = some t := by
        rw [he0] at ht
        simpa using ht
      have hteq : t = r.target := by
        have h := hInv r.dataId e0 he0 r hr rfl
        rw [he0t] at h
        injection h
      refine ⟨_, loadStep_target_eq n m r t ht hteq, ?_⟩
      intro id e hge r' hr' hid
      rw [getKey_setKey] at hge
      by_cases h : id = r.dataId
      · rw [if_pos h] at hge
        injection hge with hge'
        rw [← hge']
        show some t = some r'.target
        rw [hteq, hcons r hr r' hr' (by rw [hid, h])]
      · rw [if_neg h] at hge
        exact hInv id e hge r' hr' hid

theorem loadRecs_ok_of (R : List Record) (hcons : RecsConsistent R)
    (n : String) (rs : List Record) (hsub : ∀ r ∈ rs, r ∈ R) :
    ∀ m, InvR R m → ∃ m', loadRecs n m rs = .ok m' ∧ InvR R m' := by
  induction rs with
  | nil => intro m hInv ; exact ⟨m, rfl, hInv⟩
  | cons r rs ih =>
      intro m hInv
      obtain ⟨m1, h1, hInv1⟩ := loadStep_ok_of R hcons n r
        (hsub r (List.mem_cons_self r rs)) m hInv
      obtain ⟨m2, h2, hInv2⟩ := ih (fun q hq => hsub q (List.mem_cons_of_mem r hq)) m1 hInv1
      refine ⟨m2, ?_, hInv2⟩
      rw [loadRecs_cons, h1]
      exact h2

theorem loadFilesFrom_ok_of (R : List Record) (hcons : RecsConsistent R)
    (fs : List (String × List Record)) (hsub : ∀ f ∈ fs, ∀ r ∈ f.2, r ∈ R) :
    ∀ m, InvR R m → ∃ m', loadFilesFrom m fs = .ok m' ∧ InvR R m' := by
  induction fs with
  | nil => intro m hInv ; exact ⟨m, rfl, hInv⟩
  | cons f fs ih =>
      intro m hInv
      obtain ⟨m1, h1, hInv1⟩ := loadRecs_ok_of R hcons f.1 f.2
        (hsub f (List.mem_cons_self f fs)) m hInv
      obtain ⟨m2, h2, hInv2⟩ := ih (fun g hg => hsub g (List.mem_cons_of_mem f hg)) m1 hInv1
      refine ⟨m2, ?_, hInv2⟩
      rw [loadFilesFrom_cons, h1]
      exact h2

instance (R : List Record) : Decidable (RecsConsistent R) := by
  unfold RecsConsistent
  infer_instance

/-- C8: loading is commutative over expert files: for a fixed set of expert
record files (distinct expert names) with consistent targets, reading the
files in any order succeeds and produces an identical aggregated index:
the same set of example_ids and, for each example_id, the same
expert-to-logits mapping and the same target (ResultsEquiv). -/
theorem c8_loading_commutes (files files' : List (String × List Record))
    (hperm : files.Perm files')
    (hnodup : (files.map Prod.fst).Nodup)
    (hcons : RecsConsistent (allRecs files)) :
    ∃ m m', loadFiles files = .ok m ∧ loadFiles files' = .ok m' ∧
      ResultsEquiv m m' := by
  have hInv0 : InvR (allRecs files) [] := by
    intro id e hge
    exact absurd hge (by rw [getKey_nil] ; exact Option.noConfusion)
  obtain ⟨m, hm, _⟩ := loadFilesFrom_ok_of (allRecs files) hcons files
    (fun f hf r hr => (mem_allRecs r files).mpr ⟨f, hf, hr⟩) [] hInv0
  have hcons' : RecsConsistent (allRecs files') := by
    intro r1 h1 r2 h2 hid
    have hmem : ∀ r : Record, r ∈ allRecs files' → r ∈ allRecs files := by
      intro r hr
      obtain ⟨f, hf, hrf⟩ := (mem_allRecs r files').mp hr
      exact (mem_allRecs r files).mpr ⟨f, hperm.mem_iff.mpr hf, hrf⟩
    exact hcons r1 (hmem r1 h1) r2 (hmem r2 h2) hid
  have hInv0' : InvR (allRecs files') [] := by
    intro id e hge
    exact absurd hge (by rw [getKey_nil] ; exact Option.noConfusion)
  obtain ⟨m', hm', _⟩ := loadFilesFrom_ok_of (allRecs files') hcons' files'
    (fun f hf r hr => (mem_allRecs r files').mpr ⟨f, hf, hr⟩) [] hInv0'
  refine ⟨m, m', hm, hm', ?_⟩
  have h := loadFilesFrom_perm hperm hnodup [] [] (resultsEquiv_refl [])
  rw [hm, hm'] at h
  exact h

/-- Witness for C8: two concrete single-record expert files R and U with a
shared example_id and equal targets, loaded in both orders. -/
theorem c8_loading_commutes_witness :
    List.Perm [("R", [(⟨"i1", "t", [1, 2], 0⟩ : Record)]), ("U", [⟨"i1", "t", [5, 6], 0⟩])]
        [("U", [(⟨"i1", "t", [5, 6], 0⟩ : Record)]), ("R", [⟨"i1", "t", [1, 2], 0⟩])] ∧
    (∃ m m',
      loadFiles [("R", [(⟨"i1", "t", [1, 2], 0⟩ : Record)]), ("U", [⟨"i1", "t", [5, 6], 0⟩])] = .ok m ∧
      loadFiles [("U", [(⟨"i1", "t", [5, 6], 0⟩ : Record)]), ("R", [⟨"i1", "t", [1, 2], 0⟩])] = .ok m' ∧
      ResultsEquiv m m') :=
  ⟨by decide,
   c8_loading_commutes _ _ (by decide) (by decide) (by decide)⟩

end MMoE
